import Mathlib

/-!
Verification of the vacancy-forwarder pipeline (`forwarder.py`, `import_recent.py`).

The Python source is shallowly embedded: text is `List Char`, the SQLite
tables are lists of rows, the Telegram client's network calls are modelled
by per-message outcome flags (`native_ok`, `fallback_ok`) on the message,
and each runner returns its resulting store together with a trace of the
externally visible actions (forward attempts and rate-limit sleeps).
-/

/-- Characters treated as whitespace. Models the regex class `\s` used in
`norm_text` (`re.sub(r"\s+", " ", t)`); restricted to the ASCII whitespace
characters, as is the rest of this ASCII-level embedding of Python text
handling. -/
def isWs (c : Char) : Bool :=
  c == ' ' || c == '\t' || c == '\n' || c == '\r'

/-- Model of Python `str.lower()` (basic-latin case folding, matching the
ASCII scope of this embedding). -/
def lowerChar (c : Char) : Char :=
  Char.toLower c

/-- Collapse every maximal whitespace run to a single space. Models
`re.sub(r"\s+", " ", t)` from `norm_text` (forwarder.py line 109). -/
def collapse : List Char → List Char
  | [] => []
  | [c] => if isWs c then [' '] else [c]
  | c1 :: c2 :: rest =>
    if isWs c1 && isWs c2 then collapse (c2 :: rest)
    else (if isWs c1 then ' ' else c1) :: collapse (c2 :: rest)

/-- Remove trailing whitespace (the right half of Python `str.strip()`). -/
def trimRight : List Char → List Char
  | [] => []
  | c :: cs =>
    let r := trimRight cs
    if r = [] && isWs c then [] else c :: r

/-- Python `str.strip()`: drop leading and trailing whitespace. -/
def trim (l : List Char) : List Char :=
  trimRight (l.dropWhile isWs)

/-- Model of `norm_text` (forwarder.py lines 105-110): empty input maps to empty
output; otherwise lower-case, collapse whitespace runs to single spaces,
and strip. -/
def norm_text (s : List Char) : List Char :=
  if s = [] then [] else trim (collapse (s.map lowerChar))

/-- No two adjacent whitespace characters. -/
def noDoubleWs : List Char → Bool
  | [] => true
  | [_] => true
  | c1 :: c2 :: rest => (!(isWs c1 && isWs c2)) && noDoubleWs (c2 :: rest)

/-- Lower-case a keyword, modelling the `re.IGNORECASE` flag of the compiled
patterns: matching a literal keyword case-insensitively against the already
lower-cased text is matching its lower-cased form exactly. -/
def lowerStr (w : List Char) : List Char :=
  w.map lowerChar

/-- Keyword `w` matches the text `t` exactly at offset `i`. -/
def occursAt (t w : List Char) (i : Nat) : Bool :=
  (t.drop i).take w.length == w

/-- Substring test: models both Python `p in t` and `re.search` of a literal
word. (Keyword list entries are modelled as literal words, the `re.escape`
branch of `compile_or` and the unconditional `re.escape` of
`build_prox_pattern`.) -/
def containsSub (t w : List Char) : Bool :=
  (List.range (t.length + 1)).any (fun i => occursAt t w i)

/-- The regex metacharacters tested by `compile_or` (forwarder.py line 38):
`"\\.^$*+?[](){}|"`. -/
def metachars : List Char :=
  "\\.^$*+?[]()\x7b\x7d|".toList

/-- Model of `any(ch in w for ch in "\\.^$*+?[](){}|")` (forwarder.py line
38): the entry contains a regex metacharacter, so `compile_or` keeps it
verbatim as a regex fragment instead of `re.escape`-ing it. -/
def has_metachar (w : List Char) : Bool :=
  w.any (fun c => metachars.contains c)

/-- Search of one `compile_or` alternation entry against the normalized
text. An entry with no regex metacharacter is `re.escape`d by `compile_or`
and so matches as a case-insensitive literal substring; an entry containing
a metacharacter is kept verbatim as a regex fragment (forwarder.py line 38),
whose `(?i)`-search semantics is the external `re` engine `rx` carried in
the classifier configuration. -/
def compiled_entry_search (rx : List Char → List Char → Bool)
    (t w : List Char) : Bool :=
  if has_metachar w then rx w t else containsSub t (lowerStr w)

/-- Model of `compile_or(words).search(t)` (forwarder.py lines 35-43): the
alternation `(?i)(?:e1|e2|...)` matches iff some entry matches. Empty list
models the `None` pattern, which never matches. -/
def kw_search (rx : List Char → List Char → Bool)
    (t : List Char) (kws : List (List Char)) : Bool :=
  kws.any (fun k => compiled_entry_search rx t k)

/-- One direction of `build_prox_pattern`: some `a`-keyword occurrence
followed, after a gap of at most `prox` arbitrary characters, by some
`b`-keyword occurrence (`(?:A).{0,prox}(?:B)` with DOTALL/IGNORECASE). -/
def prox_half (t : List Char) (as bs : List (List Char)) (prox : Nat) : Bool :=
  as.any (fun a => bs.any (fun b =>
    (List.range (t.length + 1)).any (fun i =>
      occursAt t (lowerStr a) i &&
      (List.range (prox + 1)).any (fun g =>
        occursAt t (lowerStr b) (i + (lowerStr a).length + g)))))

/-- Model of `PROX_RE.search(t)`: role then seek within `prox` chars, or seek then
role (forwarder.py lines 46-54). Either keyword list empty models the `None`
pattern (never matches). -/
def prox_search (t : List Char) (roles seeks : List (List Char)) (prox : Nat) : Bool :=
  prox_half t roles seeks prox || prox_half t seeks roles prox

/-- The classifier configuration: the four keyword lists and the proximity
window, as loaded from `config.json` (forwarder.py lines 26-32; empty
entries are filtered out at load and `exclude_platforms` entries are
lower-cased at load), together with the search semantics `rx` the external
`re` engine gives to entries kept verbatim as regex fragments (the
unescaped branch of `compile_or`, forwarder.py line 38). `rx frag t`
stands for `re.compile("(?i)(?:" + frag + ")").search(t) is not None`; it
is part of the immutable compiled-matcher state built at startup. -/
structure ClassifyCfg where
  excl_plat : List (List Char)
  excl_kw : List (List Char)
  role_kw : List (List Char)
  seek_kw : List (List Char)
  prox : Nat
  rx : List Char → List Char → Bool

/-- Model of `classify_text` (forwarder.py lines 115-132). Returns
`(is_client_vacancy, is_person_offer, reason_snippet)`. -/
def classify_text (cfg : ClassifyCfg) (text : List Char) : Bool × Bool × String :=
  let t := norm_text text
  match cfg.excl_plat.find? (fun p => containsSub t p) with
  | some p => (false, true, "platform_excluded:" ++ String.mk p)
  | none =>
    if kw_search cfg.rx t cfg.excl_kw then (false, true, "offer_keyword")
    else if prox_search t cfg.role_kw cfg.seek_kw cfg.prox then (true, false, "prox_match")
    else if kw_search cfg.rx t cfg.role_kw && kw_search cfg.rx t cfg.seek_kw then
      (true, false, "role_and_seek")
    else (false, false, "no_match")

/-- A row of the `seen_messages` table; `id` is the PRIMARY KEY. -/
structure SeenRow where
  id : String
  chat_id : Int
  message_id : Int
  ts : Int
deriving DecidableEq

/-- A row of the `forwarded_hashes` table; `hash` is the PRIMARY KEY. -/
structure HashRow where
  hash : List Char
  first_seen_id : String
  forwarded_ts : Int
deriving DecidableEq

/-- The SQLite store (`init_db`, forwarder.py lines 57-74): the two tables. -/
structure Db where
  seen_messages : List SeenRow
  forwarded_hashes : List HashRow
deriving DecidableEq

/-- A freshly created store (`CREATE TABLE IF NOT EXISTS` on a new file). -/
def init_db : Db :=
  ⟨[], []⟩

/-- The `f"{chat_id}:{message_id}"` key used for `seen_messages`. -/
def unique_id (chat_id message_id : Int) : String :=
  toString chat_id ++ ":" ++ toString message_id

/-- Model of `seen_check` (forwarder.py lines 85-88). -/
def seen_check (db : Db) (u : String) : Bool :=
  db.seen_messages.any (fun r => r.id == u)

/-- Model of `safe_insert_seen` (forwarder.py lines 76-83): `INSERT` with the
PRIMARY-KEY `IntegrityError` caught and ignored, i.e. a no-op when a row
with the same `id` already exists. -/
def safe_insert_seen (db : Db) (u : String) (c m t : Int) : Db :=
  if seen_check db u then db
  else ⟨db.seen_messages ++ [⟨u, c, m, t⟩], db.forwarded_hashes⟩

/-- Model of `forwarded_hash_check` (forwarder.py lines 90-93). -/
def forwarded_hash_check (db : Db) (h : List Char) : Bool :=
  db.forwarded_hashes.any (fun r => r.hash == h)

/-- The external wall clock `time.time()`; no claim depends on the stored
timestamp, so it is modelled as a constant. -/
def time_time : Int :=
  0

/-- Model of `mark_forwarded_hash` (forwarder.py lines 95-102): idempotent insert
keyed on `hash` (PRIMARY-KEY conflict caught and ignored). -/
def mark_forwarded_hash (db : Db) (h : List Char) (first_seen_id : String) : Db :=
  if forwarded_hash_check db h then db
  else ⟨db.seen_messages, db.forwarded_hashes ++ [⟨h, first_seen_id, time_time⟩]⟩

/-- The digest `text_hash` (forwarder.py lines 112-113) is `hashlib.sha256(...)`, an
external primitive; it is modelled as an abstract digest function, here the
identity, since every claim uses only equality of digests. -/
def text_hash (s : List Char) : List Char :=
  s

/-- A Telegram message as seen by the pipeline. `date = none` models a
message without a usable `date` attribute (skipped by backfill); `message` /
`text_attr` are `msg.message` and `getattr(msg, "text", "")`. The two Bool
fields model the external network outcomes for this message: whether
`client.forward_messages` and `client.send_message` would succeed. -/
structure Msg where
  chat_id : Int
  id : Int
  date : Option Int
  message : Option (List Char)
  text_attr : Option (List Char)
  native_ok : Bool
  fallback_ok : Bool
deriving DecidableEq

/-- Model of `(message.message or "") + " " + (getattr(message, "text", "") or "")`. -/
def raw_text (m : Msg) : List Char :=
  m.message.getD [] ++ (' ' :: m.text_attr.getD [])

/-- Model of `int(msg.date.timestamp())`; the runners only evaluate it on messages
whose date is present. -/
def msg_ts (m : Msg) : Int :=
  m.date.getD 0

/-- Externally visible actions of the pipeline. `invoke` marks entry into
`forward_message` with the computed fingerprint (before the internal
duplicate check); `attempt` is an actual outbound forward action, `ok` being
its overall outcome (native success, or fallback success, or both failed);
`sleep` is the `asyncio.sleep(MIN_DELAY)` rate-limit pause. -/
inductive Ev where
  | invoke (m : Msg) (h : List Char)
  | attempt (m : Msg) (h : List Char) (ok : Bool)
  | sleep
deriving DecidableEq

/-- Result of `forward_message`: returned Bool, updated store, action trace. -/
structure FwdRes where
  ok : Bool
  db : Db
  trace : List Ev
deriving DecidableEq

/-- Model of `forward_message` (forwarder.py lines 135-158). The text is normalized;
empty text returns False with no action (`norm_text` output is already
stripped, so `txt.strip()` is `txt`). The fingerprint is the digest of the
first 2000 normalized characters; if it is already recorded the function
returns False without any outbound action. Otherwise the native forward is
attempted, then on its failure the fallback send; on either success the
fingerprint is recorded after the send. -/
def forward_message (m : Msg) (db : Db) : FwdRes :=
  let txt := norm_text (raw_text m)
  if txt = [] then ⟨false, db, []⟩
  else
    let h := text_hash (txt.take 2000)
    if forwarded_hash_check db h then ⟨false, db, [Ev.invoke m h]⟩
    else if m.native_ok then
      ⟨true, mark_forwarded_hash db h (unique_id m.chat_id m.id),
        [Ev.invoke m h, Ev.attempt m h true]⟩
    else if m.fallback_ok then
      ⟨true, mark_forwarded_hash db h (unique_id m.chat_id m.id),
        [Ev.invoke m h, Ev.attempt m h true]⟩
    else ⟨false, db, [Ev.invoke m h, Ev.attempt m h false]⟩

/-- One element yielded by `client.iter_messages`: a message, or a
source-access error raised by the iterator. -/
inductive Item where
  | msg (m : Msg)
  | err
deriving DecidableEq

/-- Result of a backfill (counters, store, trace). -/
structure ScanRes where
  forwarded : Nat
  skipped : Nat
  db : Db
  trace : List Ev
deriving DecidableEq

/-- The per-chat loop of `import_history` (forwarder.py lines 174-199).
An `err` item raises out of the `async for`; the surrounding
`try/except` in `import_history` catches it, so the scan of this chat simply
ends there, keeping the counts and store updates made so far. A message
without a date is skipped (`continue`); a message older than `cutoff` stops
the scan (`break`); otherwise the seen-check / classify / forward / record
body runs. -/
def scan_chat (cfg : ClassifyCfg) (cutoff : Int) (db : Db) : List Item → ScanRes
  | [] => ⟨0, 0, db, []⟩
  | Item.err :: _ => ⟨0, 0, db, []⟩
  | Item.msg m :: rest =>
    match m.date with
    | none => scan_chat cfg cutoff db rest
    | some d =>
      if d < cutoff then ⟨0, 0, db, []⟩
      else
        let u := unique_id m.chat_id m.id
        if seen_check db u then
          let r := scan_chat cfg cutoff db rest
          ⟨r.forwarded, r.skipped + 1, r.db, r.trace⟩
        else
          let c := classify_text cfg (raw_text m)
          if c.1 && !c.2.1 then
            let f := forward_message m db
            if f.ok then
              let db2 := safe_insert_seen f.db u m.chat_id m.id d
              let r := scan_chat cfg cutoff db2 rest
              ⟨r.forwarded + 1, r.skipped, r.db, f.trace ++ [Ev.sleep] ++ r.trace⟩
            else
              let r := scan_chat cfg cutoff f.db rest
              ⟨r.forwarded, r.skipped + 1, r.db, f.trace ++ r.trace⟩
          else
            let db2 := safe_insert_seen db u m.chat_id m.id d
            let r := scan_chat cfg cutoff db2 rest
            ⟨r.forwarded, r.skipped + 1, r.db, r.trace⟩

/-- Model of `import_history` (forwarder.py lines 161-201) over an explicit list of
chat streams (the dialog selection via `MONITOR_ALL` / `iter_dialogs` is the
external collaborator that produces this list; `iter_messages`'s per-chat
`limit` cap is reflected in each stream being finite). -/
def import_history (cfg : ClassifyCfg) (cutoff : Int) (db : Db) : List (List Item) → ScanRes
  | [] => ⟨0, 0, db, []⟩
  | ch :: rest =>
    let r := scan_chat cfg cutoff db ch
    let r2 := import_history cfg cutoff r.db rest
    ⟨r.forwarded + r2.forwarded, r.skipped + r2.skipped, r2.db, r.trace ++ r2.trace⟩

/-- Store and trace produced by a processing step. -/
structure StepRes where
  db : Db
  trace : List Ev
deriving DecidableEq

/-- The live handler body from `make_live_handler` (forwarder.py lines
204-219), processing one inbound event's message. -/
def live_handler (cfg : ClassifyCfg) (db : Db) (m : Msg) : StepRes :=
  let u := unique_id m.chat_id m.id
  if seen_check db u then ⟨db, []⟩
  else
    let c := classify_text cfg (raw_text m)
    if c.1 && !c.2.1 then
      let f := forward_message m db
      if f.ok then ⟨safe_insert_seen f.db u m.chat_id m.id (msg_ts m), f.trace ++ [Ev.sleep]⟩
      else ⟨f.db, f.trace⟩
    else ⟨safe_insert_seen db u m.chat_id m.id (msg_ts m), []⟩

/-- One invocation against the shared store: a whole backfill run
(`import_history`) or one live message. -/
inductive Run where
  | backfill (cutoff : Int) (chats : List (List Item))
  | live (m : Msg)
deriving DecidableEq

/-- A sequence of backfill and live invocations sharing one store, as in
`main` (backfill then live events) and across process restarts over the
same durable store. -/
def run_system (cfg : ClassifyCfg) (db : Db) : List Run → StepRes
  | [] => ⟨db, []⟩
  | Run.backfill cutoff chats :: rest =>
    let r := import_history cfg cutoff db chats
    let r2 := run_system cfg r.db rest
    ⟨r2.db, r.trace ++ r2.trace⟩
  | Run.live m :: rest =>
    let r := live_handler cfg db m
    let r2 := run_system cfg r.db rest
    ⟨r2.db, r.trace ++ r2.trace⟩

/-- The two phases `main` (forwarder.py lines 222-246) can run. -/
inductive Phase where
  | histImport
  | liveListen
deriving DecidableEq

/-- Phase sequence of `main(no_history)`: the history import when
`HISTORY_SCAN and not no_history`, then always the live phase
(`add_event_handler` + `run_until_disconnected`). -/
def forwarder_main (history_scan no_history : Bool) : List Phase :=
  (if history_scan && !no_history then [Phase.histImport] else []) ++ [Phase.liveListen]

/-- Entry point `import_recent.py`: it spawns `forwarder.py` via
`subprocess.run([sys.executable, "forwarder.py"])` with no arguments, i.e.
`main(no_history=False)`. -/
def import_recent_run (history_scan : Bool) : List Phase :=
  forwarder_main history_scan false

/-- Event is a successful forward attempt with fingerprint `h`. -/
def is_succ_attempt (h : List Char) : Ev → Bool
  | Ev.attempt _ h2 true => h2 == h
  | _ => false

/-- Event is an entry into `forward_message` with fingerprint `h`. -/
def is_invoke_of (h : List Char) : Ev → Bool
  | Ev.invoke _ h2 => h2 == h
  | _ => false

/-- Number of successful forward attempts for fingerprint `h` in a trace. -/
def count_succ (h : List Char) (tr : List Ev) : Nat :=
  tr.countP (is_succ_attempt h)

/-- Number of `forward_message` invocations for fingerprint `h` in a trace. -/
def count_invoke (h : List Char) (tr : List Ev) : Nat :=
  tr.countP (is_invoke_of h)

/-- Every successful forward attempt in the trace is immediately followed
by a rate-limit sleep. -/
def succ_followed : List Ev → Bool
  | [] => true
  | Ev.attempt _ _ true :: rest =>
    (match rest with
     | Ev.sleep :: _ => true
     | _ => false) && succ_followed rest
  | _ :: rest => succ_followed rest

/-- The trace does not end with a successful forward attempt. -/
def no_tail_succ (tr : List Ev) : Bool :=
  match tr.reverse with
  | Ev.attempt _ _ true :: _ => false
  | _ => true

/-- A sleep occurs before the next forward attempt (if any). -/
def sleep_first : List Ev → Bool
  | [] => true
  | Ev.sleep :: _ => true
  | Ev.attempt _ _ _ :: _ => false
  | _ :: r => sleep_first r

/-- Formalization of the claimed delay discipline: after every forward
attempt (successful or not), a sleep occurs before the next forward
attempt. -/
def attempts_delayed : List Ev → Bool
  | [] => true
  | Ev.attempt _ _ _ :: r => sleep_first r && attempts_delayed r
  | _ :: r => attempts_delayed r

/-- The event concerns a message whose timestamp is at or after `cutoff`. -/
def ev_date_ok (cutoff : Int) : Ev → Bool
  | Ev.invoke m _ =>
    (match m.date with
     | some d => decide (cutoff ≤ d)
     | none => false)
  | Ev.attempt m _ _ =>
    (match m.date with
     | some d => decide (cutoff ≤ d)
     | none => false)
  | Ev.sleep => true

/-- The timestamps of the dated messages of a chat stream, in stream order. -/
def item_dates (its : List Item) : List Int :=
  its.filterMap (fun it =>
    match it with
    | Item.msg m => m.date
    | Item.err => none)

/-- Non-increasing (newest-first) order. -/
def sorted_desc : List Int → Bool
  | [] => true
  | [_] => true
  | a :: b :: r => decide (b ≤ a) && sorted_desc (b :: r)

/-- Cut a chat stream at its first source-access error. -/
def trunc_items : List Item → List Item :=
  List.takeWhile (fun it =>
    match it with
    | Item.msg _ => true
    | Item.err => false)

/-- Number of `seen_messages` rows with key `u`. -/
def count_seen_id (db : Db) (u : String) : Nat :=
  db.seen_messages.countP (fun r => r.id == u)

/-- Number of `forwarded_hashes` rows with key `h`. -/
def count_hash (db : Db) (h : List Char) : Nat :=
  db.forwarded_hashes.countP (fun r => r.hash == h)

/-- Fingerprint bookkeeping contract of one processing step: a recorded
fingerprint suppresses all further successful attempts and stays recorded,
at most one successful attempt occurs, and a successful attempt leaves the
fingerprint recorded. -/
def HashStep (h : List Char) (db db2 : Db) (tr : List Ev) : Prop :=
  (forwarded_hash_check db h = true → count_succ h tr = 0) ∧
  (forwarded_hash_check db h = true → forwarded_hash_check db2 h = true) ∧
  count_succ h tr ≤ 1 ∧
  (1 ≤ count_succ h tr → forwarded_hash_check db2 h = true)

/-- Delay contract of a trace: successful attempts are immediately followed
by a sleep, and the trace does not end on a successful attempt. -/
def DelayOk (tr : List Ev) : Prop :=
  succ_followed tr = true ∧ no_tail_succ tr = true

/-- The `role_keyword`/`seeking_keyword` proximity co-occurrence condition
of the spec: a role keyword occurrence and a seeking keyword occurrence
within `prox` characters of each other, in either order. -/
def ProxCooccur (cfg : ClassifyCfg) (t : List Char) : Prop :=
  ∃ r ∈ cfg.role_kw, ∃ s ∈ cfg.seek_kw, r ≠ [] ∧ s ≠ [] ∧
    ∃ i g, g ≤ cfg.prox ∧
      ((occursAt t (lowerStr r) i = true ∧
        occursAt t (lowerStr s) (i + (lowerStr r).length + g) = true) ∨
       (occursAt t (lowerStr s) i = true ∧
        occursAt t (lowerStr r) (i + (lowerStr s).length + g) = true))

/-- A concrete classifier configuration for witnesses: one role keyword,
one seeking keyword, no exclusions, 40-character window. Its keyword lists
contain no regex metacharacter, so the fragment matcher is never consulted
and can be the never-matching one. -/
def cfg0 : ClassifyCfg :=
  ⟨[], [], ["developer".toList], ["hiring".toList], 40, fun _ _ => false⟩

/-- The content fingerprint of the witness text. -/
def h0 : List Char :=
  "developer hiring".toList

/-- A relevant message whose native forward succeeds. -/
def msg1 : Msg :=
  ⟨1, 1, some 10, some "developer hiring".toList, none, true, true⟩

/-- A second message with the same content but a different message id. -/
def msg2 : Msg :=
  ⟨1, 2, some 10, some "developer hiring".toList, none, true, true⟩

/-- A relevant message for which both the native forward and the fallback
send fail. -/
def msg_fail : Msg :=
  ⟨1, 3, some 10, some "developer hiring".toList, none, false, false⟩

/-- A second failing relevant message with different content. -/
def msg_fail2 : Msg :=
  ⟨1, 4, some 10, some "hiring a developer".toList, none, false, false⟩

/-- A store in which fingerprint `h0` is already recorded. -/
def db_h0 : Db :=
  ⟨[], [⟨h0, "0:0", 0⟩]⟩

/-- A message older than the witness cutoff (timestamp 5). -/
def msg_old : Msg :=
  ⟨1, 5, some 5, some "developer hiring".toList, none, true, true⟩

theorem lowerChar_lowerChar (c : Char) : lowerChar (lowerChar c) = lowerChar c := by
  by_cases h : c.toNat ≥ 65 ∧ c.toNat ≤ 90
  · have h1 : lowerChar c = Char.ofNat (c.toNat + 32) := by
      unfold lowerChar Char.toLower; simp [h]
    rw [h1]
    obtain ⟨ha, hb⟩ := h
    obtain ⟨n, hn, ha2, hb2⟩ : ∃ n, c.toNat = n ∧ 65 ≤ n ∧ n ≤ 90 :=
      ⟨c.toNat, rfl, ha, hb⟩
    rw [hn]
    interval_cases n <;> decide
  · have h1 : lowerChar c = c := by
      unfold lowerChar Char.toLower; simp [h]
    rw [h1, h1]

theorem lowerChar_space : lowerChar ' ' = ' ' := by decide

theorem collapse_mem {c : Char} : ∀ {l : List Char}, c ∈ collapse l → c = ' ' ∨ c ∈ l := by
  intro l
  induction l with
  | nil => intro h; simp [collapse] at h
  | cons c1 cs ih =>
    cases cs with
    | nil =>
      intro h
      by_cases hw : isWs c1 <;> simp [collapse, hw] at h <;> simp [h]
    | cons c2 rest =>
      intro h
      by_cases h12 : isWs c1 && isWs c2
      · simp only [collapse, h12, if_true] at h
        rcases ih h with h' | h'
        · exact Or.inl h'
        · exact Or.inr (List.mem_cons_of_mem _ h')
      · simp only [collapse, h12, if_false] at h
        rcases List.mem_cons.mp h with h' | h'
        · by_cases hw : isWs c1
          · simp [hw] at h'; exact Or.inl h'
          · simp [hw] at h'; exact Or.inr (by simp [h'])
        · rcases ih h' with h'' | h''
          · exact Or.inl h''
          · exact Or.inr (List.mem_cons_of_mem _ h'')

theorem collapse_ws_space {c : Char} : ∀ {l : List Char},
    c ∈ collapse l → isWs c = true → c = ' ' := by
  intro l
  induction l with
  | nil => intro h; simp [collapse] at h
  | cons c1 cs ih =>
    cases cs with
    | nil =>
      intro h hw
      by_cases h1 : isWs c1 <;> simp [collapse, h1] at h
      · exact h
      · rw [h] at hw; rw [hw] at h1; simp at h1
    | cons c2 rest =>
      intro h hw
      by_cases h12 : isWs c1 && isWs c2
      · simp only [collapse, h12, if_true] at h
        exact ih h hw
      · simp only [collapse, h12, if_false] at h
        rcases List.mem_cons.mp h with h' | h'
        · by_cases h1 : isWs c1
          · simpa [h1] using h'
          · simp [h1] at h'
            rw [h'] at hw
            exact absurd hw h1
        · exact ih h' hw

/-- Applying `collapse` to a list headed by a non-whitespace char keeps that head. -/
theorem collapse_cons_not_ws {c : Char} (h : isWs c = false) :
    ∀ cs, ∃ t, collapse (c :: cs) = c :: t := by
  intro cs
  cases cs with
  | nil => exact ⟨[], by simp [collapse, h]⟩
  | cons c2 rest => exact ⟨collapse (c2 :: rest), by simp [collapse, h]⟩

theorem noDoubleWs_collapse : ∀ (l : List Char), noDoubleWs (collapse l) = true := by
  intro l
  induction l with
  | nil => simp [collapse, noDoubleWs]
  | cons c1 cs ih =>
    cases cs with
    | nil => by_cases h : isWs c1 <;> simp [collapse, h, noDoubleWs]
    | cons c2 rest =>
      by_cases h12 : isWs c1 && isWs c2
      · simpa [collapse, h12] using ih
      · simp only [collapse, h12, if_false]
        by_cases h1 : isWs c1
        · have h2 : isWs c2 = false := by
            rcases Bool.and_eq_false_iff.mp (by simpa using h12) with h | h
            · rw [h] at h1; exact absurd h1 (by simp)
            · exact h
          obtain ⟨t, ht⟩ := collapse_cons_not_ws h2 rest
          rw [ht] at ih ⊢
          simp only [h1, if_true, noDoubleWs, h2]
          simpa using ih
        · simp only [h1, if_false]
          rcases hX : collapse (c2 :: rest) with _ | ⟨e, t⟩
          · simp [noDoubleWs]
          · rw [hX] at ih
            simp [noDoubleWs, h1, ih]

/-- A list whose adjacent whitespace is forbidden and whose whitespace chars
are all plain spaces is a fixed point of `collapse`. -/
theorem collapse_fixed : ∀ (l : List Char), noDoubleWs l = true →
    (∀ c ∈ l, isWs c = true → c = ' ') → collapse l = l := by
  intro l
  induction l with
  | nil => intro _ _; rfl
  | cons c1 cs ih =>
    cases cs with
    | nil =>
      intro _ hsp
      by_cases h1 : isWs c1
      · have := hsp c1 (by simp) h1
        simp [collapse, h1, this]
      · simp [collapse, h1]
    | cons c2 rest =>
      intro hnd hsp
      have h12 : (isWs c1 && isWs c2) = false := by
        cases hA : isWs c1 <;> cases hB : isWs c2 <;> simp_all [noDoubleWs]
      have hnd2 : noDoubleWs (c2 :: rest) = true := by
        simp only [noDoubleWs, Bool.and_eq_true] at hnd
        exact hnd.2
      have hrec : collapse (c2 :: rest) = c2 :: rest :=
        ih hnd2 (fun c hc hw => hsp c (List.mem_cons_of_mem _ hc) hw)
      have hstep : collapse (c1 :: c2 :: rest)
          = (if isWs c1 then ' ' else c1) :: collapse (c2 :: rest) := by
        simp [collapse, h12]
      rw [hstep, hrec]
      by_cases h1 : isWs c1
      · have hc1 : c1 = ' ' := hsp c1 (by simp) h1
        simp [h1, hc1]
      · simp [h1]

theorem noDoubleWs_tail {c : Char} {l : List Char}
    (h : noDoubleWs (c :: l) = true) : noDoubleWs l = true := by
  cases l with
  | nil => rfl
  | cons e t =>
    simp only [noDoubleWs, Bool.and_eq_true] at h
    exact h.2

theorem noDoubleWs_dropWhile {p : Char → Bool} : ∀ {l : List Char},
    noDoubleWs l = true → noDoubleWs (l.dropWhile p) = true := by
  intro l
  induction l with
  | nil => intro h; exact h
  | cons c cs ih =>
    intro h
    by_cases hp : p c
    · rw [List.dropWhile_cons_of_pos hp]
      exact ih (noDoubleWs_tail h)
    · rw [List.dropWhile_cons_of_neg hp]
      exact h

theorem dropWhile_head_not {p : Char → Bool} : ∀ {l : List Char} {c : Char} {t : List Char},
    l.dropWhile p = c :: t → p c = false := by
  intro l
  induction l with
  | nil => intro c t h; simp at h
  | cons a l' ih =>
    intro c t h
    by_cases hp : p a
    · rw [List.dropWhile_cons_of_pos hp] at h
      exact ih h
    · rw [List.dropWhile_cons_of_neg hp] at h
      obtain ⟨h1, _⟩ := List.cons.inj h
      rw [← h1]
      simpa using hp

theorem trimRight_mem {c : Char} : ∀ {l : List Char}, c ∈ trimRight l → c ∈ l := by
  intro l
  induction l with
  | nil => intro h; simp [trimRight] at h
  | cons a l' ih =>
    intro h
    simp only [trimRight] at h
    by_cases hc : (trimRight l' = [] && isWs a) = true
    · rw [if_pos hc] at h; simp at h
    · rw [if_neg (by simpa using hc)] at h
      rcases List.mem_cons.mp h with h' | h'
      · simp [h']
      · exact List.mem_cons_of_mem _ (ih h')

/-- Applying `trimRight` either empties a cons cell or keeps its head. -/
theorem trimRight_cons_shape (a : Char) (l : List Char) :
    trimRight (a :: l) = [] ∨ ∃ t, trimRight (a :: l) = a :: t := by
  simp only [trimRight]
  by_cases hc : (trimRight l = [] && isWs a) = true
  · rw [if_pos hc]; exact Or.inl rfl
  · rw [if_neg (by simpa using hc)]; exact Or.inr ⟨trimRight l, rfl⟩

theorem noDoubleWs_trimRight : ∀ {l : List Char},
    noDoubleWs l = true → noDoubleWs (trimRight l) = true := by
  intro l
  induction l with
  | nil => intro h; exact h
  | cons a l' ih =>
    intro h
    simp only [trimRight]
    by_cases hc : (trimRight l' = [] && isWs a) = true
    · rw [if_pos hc]; rfl
    · rw [if_neg (by simpa using hc)]
      have hrec : noDoubleWs (trimRight l') = true := ih (noDoubleWs_tail h)
      rcases hr : trimRight l' with _ | ⟨e, t⟩
      · rfl
      · cases l' with
        | nil => simp [trimRight] at hr
        | cons b l'' =>
          rcases trimRight_cons_shape b l'' with hsh | ⟨t2, hsh⟩
          · rw [hsh] at hr; exact absurd hr (by simp)
          · rw [hsh] at hr
            obtain ⟨hb, _⟩ := List.cons.inj hr
            simp only [noDoubleWs, Bool.and_eq_true]
            constructor
            · have hab : (!(isWs a && isWs b)) = true := by
                simp only [noDoubleWs, Bool.and_eq_true] at h
                exact h.1
              rw [← hb]
              exact hab
            · rw [hsh, hr] at hrec
              exact hrec

theorem trimRight_trimRight : ∀ (l : List Char), trimRight (trimRight l) = trimRight l := by
  intro l
  induction l with
  | nil => rfl
  | cons a l' ih =>
    simp only [trimRight]
    by_cases hc : (trimRight l' = [] && isWs a) = true
    · rw [if_pos hc]; rfl
    · rw [if_neg (by simpa using hc)]
      simp only [trimRight, ih]
      rw [if_neg (by simpa using hc)]

theorem trim_mem {c : Char} {l : List Char} (h : c ∈ trim l) : c ∈ l := by
  unfold trim at h
  exact List.dropWhile_subset isWs (trimRight_mem h)

theorem noDoubleWs_trim {l : List Char} (h : noDoubleWs l = true) :
    noDoubleWs (trim l) = true :=
  noDoubleWs_trimRight (noDoubleWs_dropWhile h)

theorem trim_trim (l : List Char) : trim (trim l) = trim l := by
  unfold trim
  rcases ha : (l.dropWhile isWs) with _ | ⟨c, cs⟩
  · simp [trimRight]
  · have hcw : isWs c = false := dropWhile_head_not ha
    rcases trimRight_cons_shape c cs with hsh | ⟨t, hsh⟩
    · rw [hsh]
      simp [trimRight]
    · rw [hsh]
      rw [List.dropWhile_cons_of_neg (by simp [hcw])]
      have := trimRight_trimRight (c :: cs)
      rw [hsh] at this
      exact this

theorem norm_text_mem_lower {c : Char} {s : List Char} (h : c ∈ norm_text s) :
    lowerChar c = c := by
  unfold norm_text at h
  by_cases hs : s = []
  · rw [if_pos hs] at h; simp at h
  · rw [if_neg hs] at h
    rcases collapse_mem (trim_mem h) with h' | h'
    · rw [h']; decide
    · obtain ⟨c0, _, hc0⟩ := List.mem_map.mp h'
      rw [← hc0]
      exact lowerChar_lowerChar c0

theorem norm_text_noDoubleWs (s : List Char) : noDoubleWs (norm_text s) = true := by
  unfold norm_text
  by_cases hs : s = []
  · rw [if_pos hs]; rfl
  · rw [if_neg hs]
    exact noDoubleWs_trim (noDoubleWs_collapse _)

theorem norm_text_ws_space {c : Char} {s : List Char} (h : c ∈ norm_text s)
    (hw : isWs c = true) : c = ' ' := by
  unfold norm_text at h
  by_cases hs : s = []
  · rw [if_pos hs] at h; simp at h
  · rw [if_neg hs] at h
    exact collapse_ws_space (trim_mem h) hw

theorem trim_norm_text (s : List Char) : trim (norm_text s) = norm_text s := by
  unfold norm_text
  by_cases hs : s = []
  · rw [if_pos hs]; rfl
  · rw [if_neg hs]
    exact trim_trim _

theorem norm_text_ne_nil_eq {s : List Char} (h : ¬s = []) :
    norm_text s = trim (collapse (s.map lowerChar)) := by
  unfold norm_text; rw [if_neg h]

/-- Normalization is idempotent: `norm_text (norm_text s) = norm_text s`. -/
theorem norm_text_idem (s : List Char) : norm_text (norm_text s) = norm_text s := by
  by_cases h0 : norm_text s = []
  · rw [h0]; rfl
  · have hmap : (norm_text s).map lowerChar = norm_text s := by
      have := List.map_congr_left (l := norm_text s) (f := lowerChar) (g := id)
        (fun c hc => norm_text_mem_lower hc)
      rw [this, List.map_id]
    have hcol : collapse (norm_text s) = norm_text s :=
      collapse_fixed _ (norm_text_noDoubleWs s)
        (fun c hc hw => norm_text_ws_space hc hw)
    calc norm_text (norm_text s)
        = trim (collapse ((norm_text s).map lowerChar)) := norm_text_ne_nil_eq h0
      _ = trim (collapse (norm_text s)) := by rw [hmap]
      _ = trim (norm_text s) := by rw [hcol]
      _ = norm_text s := trim_norm_text s

/-- Claim C10: classification is invariant under pre-normalization of its
input: for every string `s` and configuration, `classify_text` on
`norm_text s` equals `classify_text` on `s`, because the classifier
normalizes internally and `norm_text` is idempotent. -/
theorem c10_classify_norm_invariant (cfg : ClassifyCfg) (s : List Char) :
    classify_text cfg (norm_text s) = classify_text cfg s := by
  unfold classify_text
  rw [norm_text_idem]

theorem occursAt_le_length {t w : List Char} {i : Nat}
    (h : occursAt t w i = true) (hw : ¬w = []) : i ≤ t.length := by
  by_contra hgt
  push_neg at hgt
  have hd : t.drop i = [] := List.drop_eq_nil_of_le (le_of_lt hgt)
  unfold occursAt at h
  rw [hd] at h
  simp at h
  exact hw h

theorem occursAt_contains {t w : List Char} {i : Nat}
    (h : occursAt t w i = true) (hw : ¬w = []) : containsSub t w = true := by
  unfold containsSub
  rw [List.any_eq_true]
  exact ⟨i, List.mem_range.mpr (Nat.lt_succ_of_le (occursAt_le_length h hw)), h⟩

/-- A proximity co-occurrence makes the compiled `PROX_RE` pattern match:
the witnessing occurrence positions instantiate one direction of the
alternation built by `build_prox_pattern`. -/
theorem prox_search_of_cooccur {cfg : ClassifyCfg} {t : List Char}
    (hprox : ProxCooccur cfg t) :
    prox_search t cfg.role_kw cfg.seek_kw cfg.prox = true := by
  obtain ⟨r, hr, s, hs, hrne, hsne, i, g, hg, hcase⟩ := hprox
  have hlr : ¬lowerStr r = [] := by
    cases r with
    | nil => exact absurd rfl hrne
    | cons a l => simp [lowerStr]
  have hls : ¬lowerStr s = [] := by
    cases s with
    | nil => exact absurd rfl hsne
    | cons a l => simp [lowerStr]
  unfold prox_search
  rw [Bool.or_eq_true]
  rcases hcase with ⟨h1, h2⟩ | ⟨h1, h2⟩
  · left
    unfold prox_half
    exact List.any_eq_true.mpr ⟨r, hr, List.any_eq_true.mpr ⟨s, hs,
      List.any_eq_true.mpr ⟨i,
        List.mem_range.mpr (Nat.lt_succ_of_le (occursAt_le_length h1 hlr)),
        by
          rw [Bool.and_eq_true]
          exact ⟨h1, List.any_eq_true.mpr ⟨g, List.mem_range.mpr (by omega), h2⟩⟩⟩⟩⟩
  · right
    unfold prox_half
    exact List.any_eq_true.mpr ⟨s, hs, List.any_eq_true.mpr ⟨r, hr,
      List.any_eq_true.mpr ⟨i,
        List.mem_range.mpr (Nat.lt_succ_of_le (occursAt_le_length h1 hls)),
        by
          rw [Bool.and_eq_true]
          exact ⟨h1, List.any_eq_true.mpr ⟨g, List.mem_range.mpr (by omega), h2⟩⟩⟩⟩⟩

/-- Claim C2: for every text in which a role keyword and a seeking keyword
co-occur within `proximityChars` characters in either order, and no
`excludePlatforms` substring matches the (normalized) text and no
`excludeKeywords` alternation entry matches it (literally for `re.escape`d
entries, or through the `re` engine for entries kept verbatim as regex
fragments), the classifier returns RELEVANT: `is_client_vacancy` true and
`is_person_offer` false. -/
theorem c2_prox_cooccur_relevant (cfg : ClassifyCfg) (text : List Char)
    (hplat : ∀ p ∈ cfg.excl_plat, containsSub (norm_text text) p = false)
    (hexcl : ∀ k ∈ cfg.excl_kw, compiled_entry_search cfg.rx (norm_text text) k = false)
    (hprox : ProxCooccur cfg (norm_text text)) :
    (classify_text cfg text).1 = true ∧ (classify_text cfg text).2.1 = false := by
  have hfind : cfg.excl_plat.find? (fun p => containsSub (norm_text text) p) = none := by
    rw [List.find?_eq_none]
    intro p hp
    simp [hplat p hp]
  have hexcl2 : kw_search cfg.rx (norm_text text) cfg.excl_kw = false := by
    unfold kw_search
    rw [List.any_eq_false]
    intro k hk
    simp [hexcl k hk]
  have hpx := prox_search_of_cooccur hprox
  unfold classify_text
  simp only [hfind, hexcl2, Bool.false_eq_true, if_false]
  simp [hpx]

/-- Witness for C2 at the concrete Scenario-A-style input. -/
theorem c2_witness :
    (classify_text cfg0 "developer hiring".toList).1 = true ∧
    (classify_text cfg0 "developer hiring".toList).2.1 = false :=
  c2_prox_cooccur_relevant cfg0 _ (by simp [cfg0]) (by simp [cfg0])
    ⟨"developer".toList, by simp [cfg0], "hiring".toList, by simp [cfg0],
     by decide, by decide, 0, 1, by decide, Or.inl ⟨by decide, by decide⟩⟩

theorem seen_check_insert_self (db : Db) (u : String) (c m t : Int) :
    seen_check (safe_insert_seen db u c m t) u = true := by
  unfold safe_insert_seen
  by_cases h : seen_check db u
  · rw [if_pos h]; exact h
  · rw [if_neg h]
    apply List.any_eq_true.mpr
    exact ⟨⟨u, c, m, t⟩, by simp, by simp⟩

theorem seen_check_pos (db : Db) (u : String) :
    seen_check db u = true ↔ 0 < count_seen_id db u := by
  unfold seen_check count_seen_id
  rw [List.any_eq_true, List.countP_pos]

theorem hash_check_mark_self (db : Db) (h : List Char) (f : String) :
    forwarded_hash_check (mark_forwarded_hash db h f) h = true := by
  unfold mark_forwarded_hash
  by_cases hc : forwarded_hash_check db h
  · rw [if_pos hc]; exact hc
  · rw [if_neg hc]
    apply List.any_eq_true.mpr
    exact ⟨⟨h, f, time_time⟩, by simp, by simp⟩

theorem hash_check_pos (db : Db) (h : List Char) :
    forwarded_hash_check db h = true ↔ 0 < count_hash db h := by
  unfold forwarded_hash_check count_hash
  rw [List.any_eq_true, List.countP_pos]

/-- Claim C8: `safe_insert_seen` and `mark_forwarded_hash` are idempotent:
for every key, inserting the same key twice leaves the store as after one
insert, and (under the primary-key invariant of at most one row per key)
exactly one row with that key remains; the duplicate insert is a no-op and,
being a total function, raises no error. -/
theorem c8_idempotent_inserts :
    (∀ (db : Db) (u : String) (c m t c2 m2 t2 : Int),
      safe_insert_seen (safe_insert_seen db u c m t) u c2 m2 t2 =
        safe_insert_seen db u c m t) ∧
    (∀ (db : Db) (u : String) (c m t : Int), count_seen_id db u ≤ 1 →
      count_seen_id (safe_insert_seen (safe_insert_seen db u c m t) u c m t) u = 1) ∧
    (∀ (db : Db) (h : List Char) (f f2 : String),
      mark_forwarded_hash (mark_forwarded_hash db h f) h f2 =
        mark_forwarded_hash db h f) ∧
    (∀ (db : Db) (h : List Char) (f : String), count_hash db h ≤ 1 →
      count_hash (mark_forwarded_hash (mark_forwarded_hash db h f) h f) h = 1) := by
  have hseen : ∀ (db : Db) (u : String) (c m t c2 m2 t2 : Int),
      safe_insert_seen (safe_insert_seen db u c m t) u c2 m2 t2 =
        safe_insert_seen db u c m t := by
    intro db u c m t c2 m2 t2
    conv_lhs => rw [safe_insert_seen]
    rw [if_pos (seen_check_insert_self db u c m t)]
  have hmark : ∀ (db : Db) (h : List Char) (f f2 : String),
      mark_forwarded_hash (mark_forwarded_hash db h f) h f2 =
        mark_forwarded_hash db h f := by
    intro db h f f2
    conv_lhs => rw [mark_forwarded_hash]
    rw [if_pos (hash_check_mark_self db h f)]
  refine ⟨hseen, ?_, hmark, ?_⟩
  · intro db u c m t hle
    rw [hseen]
    unfold safe_insert_seen
    by_cases h : seen_check db u
    · rw [if_pos h]
      have := (seen_check_pos db u).mp h
      omega
    · rw [if_neg h]
      have h0 : count_seen_id db u = 0 := by
        by_contra hne
        exact h ((seen_check_pos db u).mpr (by omega))
      unfold count_seen_id at h0 ⊢
      simp [List.countP_append, h0]
  · intro db h f hle
    rw [hmark]
    unfold mark_forwarded_hash
    by_cases hc : forwarded_hash_check db h
    · rw [if_pos hc]
      have := (hash_check_pos db h).mp hc
      omega
    · rw [if_neg hc]
      have h0 : count_hash db h = 0 := by
        by_contra hne
        exact hc ((hash_check_pos db h).mpr (by omega))
      unfold count_hash at h0 ⊢
      simp [List.countP_append, h0]

/-- Witness for C8 at a concrete store and keys. -/
theorem c8_witness :
    count_seen_id
      (safe_insert_seen (safe_insert_seen init_db (unique_id 1 1) 1 1 0)
        (unique_id 1 1) 1 1 0) (unique_id 1 1) = 1 ∧
    count_hash
      (mark_forwarded_hash (mark_forwarded_hash init_db h0 (unique_id 1 1))
        h0 (unique_id 1 1)) h0 = 1 :=
  ⟨c8_idempotent_inserts.2.1 init_db (unique_id 1 1) 1 1 0 (by decide),
   c8_idempotent_inserts.2.2.2 init_db h0 (unique_id 1 1) (by decide)⟩

theorem mark_seen_messages (db : Db) (h : List Char) (f : String) :
    (mark_forwarded_hash db h f).seen_messages = db.seen_messages := by
  unfold mark_forwarded_hash
  by_cases hc : forwarded_hash_check db h <;> simp [hc]

theorem insert_seen_hashes (db : Db) (u : String) (c m t : Int) :
    (safe_insert_seen db u c m t).forwarded_hashes = db.forwarded_hashes := by
  unfold safe_insert_seen
  by_cases hs : seen_check db u <;> simp [hs]

theorem check_insert_seen (db : Db) (u : String) (c m t : Int) (h : List Char) :
    forwarded_hash_check (safe_insert_seen db u c m t) h = forwarded_hash_check db h := by
  unfold forwarded_hash_check
  rw [insert_seen_hashes]

theorem hash_check_mark_mono {db : Db} {h h2 : List Char} {f : String}
    (hm : forwarded_hash_check db h = true) :
    forwarded_hash_check (mark_forwarded_hash db h2 f) h = true := by
  unfold mark_forwarded_hash
  by_cases hc : forwarded_hash_check db h2
  · rw [if_pos hc]; exact hm
  · rw [if_neg hc]
    unfold forwarded_hash_check at hm ⊢
    rw [List.any_append]
    simp [hm]

/-- Exhaustive case analysis of `forward_message`: empty text (no action),
already-recorded fingerprint (no action), successful forward (native or
fallback, fingerprint recorded), terminal failure (store unchanged). -/
theorem fm_cases (m : Msg) (db : Db) :
    forward_message m db = ⟨false, db, []⟩ ∨
    (∃ h2, forwarded_hash_check db h2 = true ∧
      forward_message m db = ⟨false, db, [Ev.invoke m h2]⟩) ∨
    (∃ h2, forwarded_hash_check db h2 = false ∧
      forward_message m db =
        ⟨true, mark_forwarded_hash db h2 (unique_id m.chat_id m.id),
          [Ev.invoke m h2, Ev.attempt m h2 true]⟩) ∨
    (∃ h2, forwarded_hash_check db h2 = false ∧
      forward_message m db = ⟨false, db, [Ev.invoke m h2, Ev.attempt m h2 false]⟩) := by
  by_cases h1 : norm_text (raw_text m) = []
  · left
    simp [forward_message, h1]
  · by_cases hc : forwarded_hash_check db (text_hash ((norm_text (raw_text m)).take 2000))
    · right; left
      exact ⟨text_hash ((norm_text (raw_text m)).take 2000), hc,
        by simp [forward_message, h1, hc]⟩
    · by_cases hn : m.native_ok
      · right; right; left
        exact ⟨text_hash ((norm_text (raw_text m)).take 2000), by simpa using hc,
          by simp [forward_message, h1, hc, hn]⟩
      · by_cases hf : m.fallback_ok
        · right; right; left
          exact ⟨text_hash ((norm_text (raw_text m)).take 2000), by simpa using hc,
            by simp [forward_message, h1, hc, hn, hf]⟩
        · right; right; right
          exact ⟨text_hash ((norm_text (raw_text m)).take 2000), by simpa using hc,
            by simp [forward_message, h1, hc, hn, hf]⟩

theorem fm_seen_messages (m : Msg) (db : Db) :
    (forward_message m db).db.seen_messages = db.seen_messages := by
  rcases fm_cases m db with he | ⟨h2, _, he⟩ | ⟨h2, _, he⟩ | ⟨h2, _, he⟩ <;> rw [he]
  exact mark_seen_messages db h2 _

theorem seen_check_fm (m : Msg) (db : Db) (u : String) :
    seen_check (forward_message m db).db u = seen_check db u := by
  unfold seen_check
  rw [fm_seen_messages]

/-- Claim C7: a `ForwardedFingerprint` record is written only when the
forward action succeeded (natively or via fallback), never before: whenever
`forward_message` returns False — in particular when both the native forward
and the fallback send fail — the store is unchanged; and when it returns
True, a successful forward attempt is in its trace and its fingerprint is
recorded in the resulting store. -/
theorem c7_record_only_after_success (m : Msg) (db : Db) :
    ((forward_message m db).ok = false → (forward_message m db).db = db) ∧
    ((forward_message m db).ok = true →
      ∃ h2, Ev.attempt m h2 true ∈ (forward_message m db).trace ∧
        forwarded_hash_check (forward_message m db).db h2 = true) := by
  rcases fm_cases m db with he | ⟨h2, hc, he⟩ | ⟨h2, hc, he⟩ | ⟨h2, hc, he⟩ <;> rw [he]
  · exact ⟨fun _ => rfl, fun hok => by simp at hok⟩
  · exact ⟨fun _ => rfl, fun hok => by simp at hok⟩
  · refine ⟨fun hok => by simp at hok, fun _ => ⟨h2, by simp, ?_⟩⟩
    exact hash_check_mark_self db h2 _
  · exact ⟨fun _ => rfl, fun hok => by simp at hok⟩

/-- Witness for C7: a concrete terminal failure leaves the store unchanged,
and a concrete success records the fingerprint after a successful attempt. -/
theorem c7_witness :
    (forward_message msg_fail init_db).db = init_db ∧
    (∃ h2, Ev.attempt msg1 h2 true ∈ (forward_message msg1 init_db).trace ∧
      forwarded_hash_check (forward_message msg1 init_db).db h2 = true) :=
  ⟨(c7_record_only_after_success msg_fail init_db).1 (by decide),
   (c7_record_only_after_success msg1 init_db).2 (by decide)⟩

theorem count_succ_append (h : List Char) (t1 t2 : List Ev) :
    count_succ h (t1 ++ t2) = count_succ h t1 + count_succ h t2 := by
  simp [count_succ, List.countP_append]

theorem hashStep_pure {h : List Char} {db db2 : Db} {tr : List Ev}
    (hdb : forwarded_hash_check db2 h = forwarded_hash_check db h)
    (htr : count_succ h tr = 0) : HashStep h db db2 tr := by
  refine ⟨fun _ => htr, fun hh => by rw [hdb]; exact hh, by rw [htr]; omega, ?_⟩
  intro hge
  rw [htr] at hge
  exact absurd hge (by omega)

theorem hashStep_comp {h : List Char} {a b c : Db} {t1 t2 : List Ev}
    (s1 : HashStep h a b t1) (s2 : HashStep h b c t2) :
    HashStep h a c (t1 ++ t2) := by
  obtain ⟨p1, p2, p3, p4⟩ := s1
  obtain ⟨q1, q2, q3, q4⟩ := s2
  have hcount := count_succ_append h t1 t2
  refine ⟨?_, fun hh => q2 (p2 hh), ?_, ?_⟩
  · intro hh
    rw [hcount, p1 hh, q1 (p2 hh)]
  · rw [hcount]
    by_cases h1 : 1 ≤ count_succ h t1
    · have hq := q1 (p4 h1)
      omega
    · have h10 : count_succ h t1 = 0 := by omega
      omega
  · intro hh
    rw [hcount] at hh
    by_cases h1 : 1 ≤ count_succ h t1
    · exact q2 (p4 h1)
    · have h10 : count_succ h t1 = 0 := by omega
      exact q4 (by omega)

theorem fm_hashStep (h : List Char) (m : Msg) (db : Db) :
    HashStep h db (forward_message m db).db (forward_message m db).trace := by
  rcases fm_cases m db with he | ⟨h2, hc, he⟩ | ⟨h2, hc, he⟩ | ⟨h2, hc, he⟩ <;> rw [he]
  · exact hashStep_pure rfl rfl
  · exact hashStep_pure rfl (by simp [count_succ, is_succ_attempt])
  · by_cases heq : h2 = h
    · subst heq
      refine ⟨fun hh => absurd hh (by simp [hc]), fun hh => absurd hh (by simp [hc]),
        ?_, fun _ => hash_check_mark_self db h2 _⟩
      simp [count_succ, is_succ_attempt]
    · have hne : (h2 == h) = false := by simp [heq]
      apply hashStep_pure
      · unfold mark_forwarded_hash
        rw [if_neg (by simp [hc])]
        unfold forwarded_hash_check
        rw [List.any_append]
        simp [hne]
      · simp [count_succ, is_succ_attempt, hne]
  · exact hashStep_pure rfl (by simp [count_succ, is_succ_attempt])

theorem live_hashStep (h : List Char) (cfg : ClassifyCfg) (db : Db) (m : Msg) :
    HashStep h db (live_handler cfg db m).db (live_handler cfg db m).trace := by
  simp only [live_handler]
  by_cases hs : seen_check db (unique_id m.chat_id m.id) = true
  · rw [if_pos hs]
    exact hashStep_pure rfl rfl
  · rw [if_neg hs]
    by_cases hcv : ((classify_text cfg (raw_text m)).1 && !(classify_text cfg (raw_text m)).2.1) = true
    · rw [if_pos hcv]
      by_cases hok : (forward_message m db).ok = true
      · rw [if_pos hok]
        exact hashStep_comp (fm_hashStep h m db)
          (hashStep_pure (check_insert_seen _ _ _ _ _ _)
            (by simp [count_succ, is_succ_attempt]))
      · rw [if_neg hok]
        exact fm_hashStep h m db
    · rw [if_neg hcv]
      exact hashStep_pure (check_insert_seen _ _ _ _ _ _) rfl

theorem scan_hashStep (h : List Char) (cfg : ClassifyCfg) (cutoff : Int) :
    ∀ (items : List Item) (db : Db),
      HashStep h db (scan_chat cfg cutoff db items).db (scan_chat cfg cutoff db items).trace := by
  intro items
  induction items with
  | nil =>
    intro db
    exact hashStep_pure rfl rfl
  | cons it rest ih =>
    intro db
    cases it with
    | err => exact hashStep_pure rfl rfl
    | msg m =>
      rcases hd : m.date with _ | d
      · simp only [scan_chat, hd]
        exact ih db
      · by_cases hcut : d < cutoff
        · simp only [scan_chat, hd, if_pos hcut]
          exact hashStep_pure rfl rfl
        · simp only [scan_chat, hd]
          rw [if_neg hcut]
          by_cases hs : seen_check db (unique_id m.chat_id m.id) = true
          · rw [if_pos hs]
            exact ih db
          · rw [if_neg hs]
            by_cases hcv : ((classify_text cfg (raw_text m)).1 && !(classify_text cfg (raw_text m)).2.1) = true
            · rw [if_pos hcv]
              by_cases hok : (forward_message m db).ok = true
              · rw [if_pos hok]
                exact hashStep_comp
                  (hashStep_comp (fm_hashStep h m db)
                    (hashStep_pure (check_insert_seen _ _ _ _ _ _)
                      (by simp [count_succ, is_succ_attempt])))
                  (ih (safe_insert_seen (forward_message m db).db
                    (unique_id m.chat_id m.id) m.chat_id m.id d))
              · rw [if_neg hok]
                exact hashStep_comp (fm_hashStep h m db) (ih (forward_message m db).db)
            · rw [if_neg hcv]
              have := hashStep_comp
                (hashStep_pure
                  (check_insert_seen db (unique_id m.chat_id m.id) m.chat_id m.id d h)
                  (rfl : count_succ h ([] : List Ev) = 0))
                (ih (safe_insert_seen db (unique_id m.chat_id m.id) m.chat_id m.id d))
              simpa using this

theorem import_hashStep (h : List Char) (cfg : ClassifyCfg) (cutoff : Int) :
    ∀ (chats : List (List Item)) (db : Db),
      HashStep h db (import_history cfg cutoff db chats).db
        (import_history cfg cutoff db chats).trace := by
  intro chats
  induction chats with
  | nil =>
    intro db
    exact hashStep_pure rfl rfl
  | cons ch rest ih =>
    intro db
    exact hashStep_comp (scan_hashStep h cfg cutoff ch db)
      (ih (scan_chat cfg cutoff db ch).db)

theorem run_system_hashStep (h : List Char) (cfg : ClassifyCfg) :
    ∀ (runs : List Run) (db : Db),
      HashStep h db (run_system cfg db runs).db (run_system cfg db runs).trace := by
  intro runs
  induction runs with
  | nil =>
    intro db
    exact hashStep_pure rfl rfl
  | cons rn rest ih =>
    intro db
    cases rn with
    | backfill cutoff chats =>
      exact hashStep_comp (import_hashStep h cfg cutoff chats db)
        (ih (import_history cfg cutoff db chats).db)
    | live m =>
      exact hashStep_comp (live_hashStep h cfg db m)
        (ih (live_handler cfg db m).db)

/-- Claim C1 (amended): across any sequence of backfill and live message
processings sharing one store, the forward action succeeds at most once per
content fingerprint, and never for a fingerprint already recorded in the
store. (The check is performed inside `forward_message`, not by its
callers — see the counterexample.) -/
theorem c1_at_most_one_success (cfg : ClassifyCfg) (db : Db) (runs : List Run)
    (h : List Char) :
    count_succ h (run_system cfg db runs).trace ≤ 1 ∧
    (forwarded_hash_check db h = true →
      count_succ h (run_system cfg db runs).trace = 0) :=
  ⟨(run_system_hashStep h cfg runs db).2.2.1, (run_system_hashStep h cfg runs db).1⟩

/-- Witness for C1 (amended): with fingerprint `h0` already recorded, a live
processing of a message with that content performs no successful attempt. -/
theorem c1_witness :
    count_succ h0 (run_system cfg0 db_h0 [Run.live msg2]).trace = 0 :=
  (c1_at_most_one_success cfg0 db_h0 [Run.live msg2] h0).2 (by decide)

/-- Counterexample to C1 as stated: the callers do not check the fingerprint
store; processing two distinct messages with identical content invokes
`forward_message` twice for the same fingerprint (the second invocation is
suppressed only by the check inside `forward_message`). -/
theorem c1_counterexample :
    ¬ (count_invoke h0 (run_system cfg0 init_db [Run.live msg1, Run.live msg2]).trace ≤ 1) := by
  decide

theorem no_tail_succ_of_cons {e : Ev} {rest : List Ev}
    (hn : no_tail_succ (e :: rest) = true) : no_tail_succ rest = true := by
  rcases hr : rest.reverse with _ | ⟨x, xs⟩
  · unfold no_tail_succ
    rw [hr]
  · unfold no_tail_succ at hn ⊢
    rw [List.reverse_cons, hr, List.cons_append] at hn
    rw [hr]
    cases x with
    | attempt m h ok =>
      cases ok with
      | true => simpa using hn
      | false => rfl
    | invoke m h => rfl
    | sleep => rfl

theorem no_tail_succ_append {t1 t2 : List Ev} (h2 : no_tail_succ t2 = true)
    (h1 : t2 = [] → no_tail_succ t1 = true) : no_tail_succ (t1 ++ t2) = true := by
  rcases hr : t2.reverse with _ | ⟨x, xs⟩
  · have ht2 : t2 = [] := by simpa using congrArg List.reverse hr
    rw [ht2, List.append_nil]
    exact h1 ht2
  · unfold no_tail_succ at h2 ⊢
    rw [List.reverse_append, hr, List.cons_append]
    rw [hr] at h2
    cases x with
    | attempt m h ok =>
      cases ok with
      | true => simpa using h2
      | false => rfl
    | invoke m h => rfl
    | sleep => rfl

theorem succ_followed_append : ∀ {t1 t2 : List Ev}, succ_followed t1 = true →
    no_tail_succ t1 = true → succ_followed t2 = true →
    succ_followed (t1 ++ t2) = true := by
  intro t1
  induction t1 with
  | nil =>
    intro t2 _ _ h2
    simpa using h2
  | cons e rest ih =>
    intro t2 h1 hn h2
    cases e with
    | invoke m h =>
      simp only [List.cons_append, succ_followed]
      exact ih (by simpa [succ_followed] using h1) (no_tail_succ_of_cons hn) h2
    | sleep =>
      simp only [List.cons_append, succ_followed]
      exact ih (by simpa [succ_followed] using h1) (no_tail_succ_of_cons hn) h2
    | attempt m h ok =>
      cases ok with
      | false =>
        simp only [List.cons_append, succ_followed]
        exact ih (by simpa [succ_followed] using h1) (no_tail_succ_of_cons hn) h2
      | true =>
        have h1' := h1
        simp only [succ_followed, Bool.and_eq_true] at h1'
        obtain ⟨hg, hrest⟩ := h1'
        rcases rest with _ | ⟨r0, rest'⟩
        · simp at hg
        · cases r0 with
          | sleep =>
            simp only [List.cons_append, succ_followed, Bool.and_eq_true]
            constructor
            · rfl
            · exact ih hrest (no_tail_succ_of_cons hn) h2
          | invoke m2 hx => simp at hg
          | attempt m2 hx ok2 => simp at hg

theorem delayOk_nil : DelayOk [] :=
  ⟨rfl, rfl⟩

theorem delayOk_comp {t1 t2 : List Ev} (d1 : DelayOk t1) (d2 : DelayOk t2) :
    DelayOk (t1 ++ t2) :=
  ⟨succ_followed_append d1.1 d1.2 d2.1, no_tail_succ_append d2.2 (fun _ => d1.2)⟩

theorem fm_delayOk_fail {m : Msg} {db : Db}
    (hok : (forward_message m db).ok = false) :
    DelayOk (forward_message m db).trace := by
  rcases fm_cases m db with he | ⟨h2, _, he⟩ | ⟨h2, _, he⟩ | ⟨h2, _, he⟩ <;> rw [he]
  · exact delayOk_nil
  · exact ⟨by simp [succ_followed], by simp [no_tail_succ]⟩
  · rw [he] at hok
    simp at hok
  · exact ⟨by simp [succ_followed], by simp [no_tail_succ]⟩

theorem fm_delayOk_succ {m : Msg} {db : Db}
    (hok : (forward_message m db).ok = true) :
    DelayOk ((forward_message m db).trace ++ [Ev.sleep]) := by
  rcases fm_cases m db with he | ⟨h2, _, he⟩ | ⟨h2, _, he⟩ | ⟨h2, _, he⟩ <;> rw [he]
  · rw [he] at hok
    simp at hok
  · rw [he] at hok
    simp at hok
  · exact ⟨by simp [succ_followed], by simp [no_tail_succ]⟩
  · rw [he] at hok
    simp at hok

theorem live_delayOk (cfg : ClassifyCfg) (db : Db) (m : Msg) :
    DelayOk (live_handler cfg db m).trace := by
  simp only [live_handler]
  by_cases hs : seen_check db (unique_id m.chat_id m.id) = true
  · rw [if_pos hs]
    exact delayOk_nil
  · rw [if_neg hs]
    by_cases hcv : ((classify_text cfg (raw_text m)).1 && !(classify_text cfg (raw_text m)).2.1) = true
    · rw [if_pos hcv]
      by_cases hok : (forward_message m db).ok = true
      · rw [if_pos hok]
        exact fm_delayOk_succ hok
      · rw [if_neg hok]
        exact fm_delayOk_fail (by simpa using hok)
    · rw [if_neg hcv]
      exact delayOk_nil

theorem scan_delayOk (cfg : ClassifyCfg) (cutoff : Int) :
    ∀ (items : List Item) (db : Db), DelayOk (scan_chat cfg cutoff db items).trace := by
  intro items
  induction items with
  | nil =>
    intro db
    exact delayOk_nil
  | cons it rest ih =>
    intro db
    cases it with
    | err => exact delayOk_nil
    | msg m =>
      rcases hd : m.date with _ | d
      · simp only [scan_chat, hd]
        exact ih db
      · by_cases hcut : d < cutoff
        · simp only [scan_chat, hd, if_pos hcut]
          exact delayOk_nil
        · simp only [scan_chat, hd]
          rw [if_neg hcut]
          by_cases hs : seen_check db (unique_id m.chat_id m.id) = true
          · rw [if_pos hs]
            exact ih db
          · rw [if_neg hs]
            by_cases hcv : ((classify_text cfg (raw_text m)).1 && !(classify_text cfg (raw_text m)).2.1) = true
            · rw [if_pos hcv]
              by_cases hok : (forward_message m db).ok = true
              · rw [if_pos hok]
                exact delayOk_comp (fm_delayOk_succ hok)
                  (ih (safe_insert_seen (forward_message m db).db
                    (unique_id m.chat_id m.id) m.chat_id m.id d))
              · rw [if_neg hok]
                exact delayOk_comp (fm_delayOk_fail (by simpa using hok))
                  (ih (forward_message m db).db)
            · rw [if_neg hcv]
              exact ih (safe_insert_seen db (unique_id m.chat_id m.id) m.chat_id m.id d)

theorem import_delayOk (cfg : ClassifyCfg) (cutoff : Int) :
    ∀ (chats : List (List Item)) (db : Db),
      DelayOk (import_history cfg cutoff db chats).trace := by
  intro chats
  induction chats with
  | nil =>
    intro db
    exact delayOk_nil
  | cons ch rest ih =>
    intro db
    exact delayOk_comp (scan_delayOk cfg cutoff ch db) (ih (scan_chat cfg cutoff db ch).db)

theorem run_system_delayOk (cfg : ClassifyCfg) :
    ∀ (runs : List Run) (db : Db), DelayOk (run_system cfg db runs).trace := by
  intro runs
  induction runs with
  | nil =>
    intro db
    exact delayOk_nil
  | cons rn rest ih =>
    intro db
    cases rn with
    | backfill cutoff chats =>
      exact delayOk_comp (import_delayOk cfg cutoff chats db)
        (ih (import_history cfg cutoff db chats).db)
    | live m =>
      exact delayOk_comp (live_delayOk cfg db m) (ih (live_handler cfg db m).db)

/-- Claim C4 (amended): in every sequence of backfill and live processings,
each successful forward attempt (native or fallback) is immediately followed
by the minimum-delay sleep before anything else happens — but no delay is
enforced after a terminally failed attempt (see the counterexample). -/
theorem c4_sleep_after_success (cfg : ClassifyCfg) (db : Db) (runs : List Run) :
    succ_followed (run_system cfg db runs).trace = true :=
  (run_system_delayOk cfg runs db).1

/-- Counterexample to C4 as stated: after a forward attempt whose native
and fallback sends both fail, the caller does not sleep; a second forward
attempt follows with no sleep in between. -/
theorem c4_counterexample :
    ¬ (attempts_delayed (run_system cfg0 init_db
        [Run.live msg_fail, Run.live msg_fail2]).trace = true) := by
  decide

theorem fm_trace_dates {cutoff d : Int} {m : Msg} (db : Db)
    (hd : m.date = some d) (hcut : ¬ d < cutoff) :
    (forward_message m db).trace.all (ev_date_ok cutoff) = true := by
  rcases fm_cases m db with he | ⟨h2, _, he⟩ | ⟨h2, _, he⟩ | ⟨h2, _, he⟩ <;> rw [he] <;>
    simp [ev_date_ok, hd] <;> omega

theorem scan_trace_dates (cfg : ClassifyCfg) (cutoff : Int) :
    ∀ (items : List Item) (db : Db),
      (scan_chat cfg cutoff db items).trace.all (ev_date_ok cutoff) = true := by
  intro items
  induction items with
  | nil =>
    intro db
    rfl
  | cons it rest ih =>
    intro db
    cases it with
    | err => rfl
    | msg m =>
      rcases hd : m.date with _ | d
      · simp only [scan_chat, hd]
        exact ih db
      · by_cases hcut : d < cutoff
        · simp only [scan_chat, hd, if_pos hcut]
          rfl
        · simp only [scan_chat, hd]
          rw [if_neg hcut]
          by_cases hs : seen_check db (unique_id m.chat_id m.id) = true
          · rw [if_pos hs]
            exact ih db
          · rw [if_neg hs]
            by_cases hcv : ((classify_text cfg (raw_text m)).1 && !(classify_text cfg (raw_text m)).2.1) = true
            · rw [if_pos hcv]
              by_cases hok : (forward_message m db).ok = true
              · rw [if_pos hok]
                simp only [List.all_append]
                rw [fm_trace_dates db hd hcut]
                rw [ih (safe_insert_seen (forward_message m db).db
                  (unique_id m.chat_id m.id) m.chat_id m.id d)]
                rfl
              · rw [if_neg hok]
                simp only [List.all_append]
                rw [fm_trace_dates db hd hcut]
                rw [ih (forward_message m db).db]
                rfl
            · rw [if_neg hcv]
              exact ih (safe_insert_seen db (unique_id m.chat_id m.id) m.chat_id m.id d)

theorem import_trace_dates (cfg : ClassifyCfg) (cutoff : Int) :
    ∀ (chats : List (List Item)) (db : Db),
      (import_history cfg cutoff db chats).trace.all (ev_date_ok cutoff) = true := by
  intro chats
  induction chats with
  | nil =>
    intro db
    rfl
  | cons ch rest ih =>
    intro db
    simp only [import_history, List.all_append]
    rw [scan_trace_dates cfg cutoff ch db, ih (scan_chat cfg cutoff db ch).db]
    rfl

/-- Claim C5: under the precondition that each chat's stream delivers
messages newest-first, backfill never produces a forward action (invocation
or attempt) for a message whose timestamp is strictly earlier than the
cutoff: the per-chat scan breaks at the first older message. (The break
guard makes this hold for every stream, ordered or not.) -/
theorem c5_no_forward_before_cutoff (cfg : ClassifyCfg) (cutoff : Int) (db : Db)
    (chats : List (List Item))
    (hsort : ∀ ch ∈ chats, sorted_desc (item_dates ch) = true) :
    (import_history cfg cutoff db chats).trace.all (ev_date_ok cutoff) = true :=
  import_trace_dates cfg cutoff chats db

/-- Witness for C5: a newest-first chat whose second message is older than
the cutoff. -/
theorem c5_witness :
    (import_history cfg0 7 init_db [[Item.msg msg1, Item.msg msg_old]]).trace.all
      (ev_date_ok 7) = true :=
  c5_no_forward_before_cutoff cfg0 7 init_db [[Item.msg msg1, Item.msg msg_old]]
    (by decide)

/-- Claim C3 (amended): for a fresh message processed by a runner (live
handler, or backfill body for an in-window message), a SeenRecord for its
`(chat_id, message_id)` key exists after processing if and only if the
message was NOT classified relevant, or its forward attempt returned
success. In particular, when the message was classified RELEVANT but
`forward_message` returned False (terminal failure, duplicate fingerprint,
or empty text), no SeenRecord is written — contrary to the claim as
stated (see the counterexample). -/
theorem c3_seen_iff (cfg : ClassifyCfg) (db : Db) (m : Msg) (cutoff d : Int)
    (hseen : seen_check db (unique_id m.chat_id m.id) = false)
    (hdate : m.date = some d) (hcut : ¬ d < cutoff) :
    (seen_check (live_handler cfg db m).db (unique_id m.chat_id m.id) = true ↔
      (((classify_text cfg (raw_text m)).1 && !(classify_text cfg (raw_text m)).2.1) = false ∨
       (forward_message m db).ok = true)) ∧
    (seen_check (scan_chat cfg cutoff db [Item.msg m]).db (unique_id m.chat_id m.id) = true ↔
      (((classify_text cfg (raw_text m)).1 && !(classify_text cfg (raw_text m)).2.1) = false ∨
       (forward_message m db).ok = true)) := by
  constructor
  · simp only [live_handler]
    rw [if_neg (by simp [hseen])]
    by_cases hcv : ((classify_text cfg (raw_text m)).1 && !(classify_text cfg (raw_text m)).2.1) = true
    · rw [if_pos hcv]
      by_cases hok : (forward_message m db).ok = true
      · rw [if_pos hok]
        exact ⟨fun _ => Or.inr hok, fun _ => seen_check_insert_self _ _ _ _ _⟩
      · rw [if_neg hok]
        constructor
        · intro hsc
          rw [seen_check_fm, hseen] at hsc
          exact absurd hsc (by simp)
        · intro hor
          rcases hor with hcv2 | hok2
          · rw [hcv] at hcv2
            exact absurd hcv2 (by simp)
          · exact absurd hok2 hok
    · rw [if_neg hcv]
      exact ⟨fun _ => Or.inl (by simpa using hcv), fun _ => seen_check_insert_self _ _ _ _ _⟩
  · simp only [scan_chat, hdate]
    rw [if_neg hcut]
    rw [if_neg (by simp [hseen])]
    by_cases hcv : ((classify_text cfg (raw_text m)).1 && !(classify_text cfg (raw_text m)).2.1) = true
    · rw [if_pos hcv]
      by_cases hok : (forward_message m db).ok = true
      · rw [if_pos hok]
        exact ⟨fun _ => Or.inr hok, fun _ => seen_check_insert_self _ _ _ _ _⟩
      · rw [if_neg hok]
        constructor
        · intro hsc
          rw [seen_check_fm, hseen] at hsc
          exact absurd hsc (by simp)
        · intro hor
          rcases hor with hcv2 | hok2
          · rw [hcv] at hcv2
            exact absurd hcv2 (by simp)
          · exact absurd hok2 hok
    · rw [if_neg hcv]
      exact ⟨fun _ => Or.inl (by simpa using hcv), fun _ => seen_check_insert_self _ _ _ _ _⟩

/-- Witness for C3 (amended): a successfully forwarded message gets its
SeenRecord. -/
theorem c3_witness :
    seen_check (live_handler cfg0 init_db msg1).db (unique_id 1 1) = true :=
  ((c3_seen_iff cfg0 init_db msg1 0 10 (by decide) (by decide) (by decide)).1).mpr
    (Or.inr (by decide))

/-- Counterexample to C3 as stated: a message classified RELEVANT whose
forward attempt fails terminally is left with no SeenRecord. -/
theorem c3_counterexample :
    ¬ (seen_check (live_handler cfg0 init_db msg_fail).db (unique_id 1 3) = true) := by
  decide

theorem scan_chat_trunc (cfg : ClassifyCfg) (cutoff : Int) :
    ∀ (items : List Item) (db : Db),
      scan_chat cfg cutoff db items = scan_chat cfg cutoff db (trunc_items items) := by
  intro items
  induction items with
  | nil =>
    intro db
    rfl
  | cons it rest ih =>
    intro db
    cases it with
    | err =>
      have htr : trunc_items (Item.err :: rest) = [] := by simp [trunc_items]
      rw [htr]
      rfl
    | msg m =>
      have htr : trunc_items (Item.msg m :: rest) = Item.msg m :: trunc_items rest := by
        simp [trunc_items]
      rw [htr]
      rcases hd : m.date with _ | d
      · simp only [scan_chat, hd]
        exact ih db
      · by_cases hcut : d < cutoff
        · simp only [scan_chat, hd, if_pos hcut]
        · simp only [scan_chat, hd, if_neg hcut]
          by_cases hs : seen_check db (unique_id m.chat_id m.id) = true
          · simp only [if_pos hs]
            rw [ih db]
          · simp only [if_neg hs]
            by_cases hcv : ((classify_text cfg (raw_text m)).1 && !(classify_text cfg (raw_text m)).2.1) = true
            · simp only [if_pos hcv]
              by_cases hok : (forward_message m db).ok = true
              · simp only [if_pos hok]
                rw [ih (safe_insert_seen (forward_message m db).db
                  (unique_id m.chat_id m.id) m.chat_id m.id d)]
              · simp only [if_neg hok]
                rw [ih (forward_message m db).db]
            · simp only [if_neg hcv]
              rw [ih (safe_insert_seen db (unique_id m.chat_id m.id) m.chat_id m.id d)]

/-- Claim C6 (amended): a source-access error raised while scanning a chat
does not abort the backfill: the error is caught, and the run behaves
exactly as if that chat's stream had ended at the error point — all
remaining chats are processed and earlier bookkeeping is kept. The skipped
count therefore does NOT include the failed chat's unprocessed messages
(see the counterexample). -/
theorem c6_error_ends_chat (cfg : ClassifyCfg) (cutoff : Int) (db : Db)
    (chats : List (List Item)) :
    import_history cfg cutoff db chats =
      import_history cfg cutoff db (chats.map trunc_items) := by
  induction chats generalizing db with
  | nil => rfl
  | cons ch rest ih =>
    simp only [import_history, List.map_cons]
    rw [← scan_chat_trunc cfg cutoff ch db, ih]

/-- Counterexample to C6 as stated: a chat that errors immediately, leaving
two unprocessed messages, contributes nothing to the skipped count. -/
theorem c6_counterexample :
    ¬ (2 ≤ (import_history cfg0 0 init_db
        [[Item.err, Item.msg msg1, Item.msg msg2]]).skipped) := by
  decide

/-- Claim C9: the backfill-only entry point `import_recent.py` in fact
spawns a full `forwarder.py` run with `no_history=False`, so the live
monitoring phase IS activated (for any `history_scan` setting) — the code
contradicts its own comment ("we want only history and exit"). -/
theorem c9_import_recent_runs_live :
    Phase.liveListen ∈ import_recent_run true ∧
    Phase.liveListen ∈ import_recent_run false := by
  decide
